import Mathlib

/-!
Verification of the population-sampler notebook (`app_hbm_galaxy_evolution.ipynb`).

The model is a shallow embedding of the likelihood engine `loglike_nz` and the
MH-in-Gibbs sampler `population_sampler` in exact real arithmetic:

* a numpy float vector becomes a `List ℝ` (so there are no non-finite values;
  the `~np.isfinite(nz)` disjunct of the source of the validity check is vacuous in
  the model and the check reduces to negativity);
* `np.log` becomes `Real.log` and a float log-likelihood (which may be
  `-np.inf`) becomes an `EReal`, with `⊥` standing for `-inf`;
* the numpy `RandomState` is an explicit oracle (`RandomSource`) of the pair
  draws, standard-normal draws and exponential draws, indexed by when the
  sampler consumes them, so a fixed seed corresponds to a fixed oracle;
* the Python return value `loglike` vs `(loglike, overlap)` (selected by
  `return_overlap`) is modelled by always returning the pair; callers that set
  `return_overlap=False` simply use the first component.
-/

noncomputable section

abbrev Vec := List ℝ

/-- Inner product of two vectors, `np.dot` restricted to 1-d arguments. -/
def dot (u v : Vec) : ℝ := (List.zipWith (fun a b => a * b) u v).sum

/-- `np.dot(pdfs, nz)` for a matrix (list of rows) and a vector. -/
def matVec (pdfs : List Vec) (nz : Vec) : Vec := pdfs.map (fun row => dot row nz)

/-- The column `pdfs[:, i]`. -/
def col (pdfs : List Vec) (i : ℕ) : Vec := pdfs.map (fun row => row.getD i 0)

/-- The basis direction of a pairwise move: `t = np.zeros_like(pos); t[pair] = (1, -1)`.
With numpy fancy assignment the later index wins on duplicates, hence the `j` test first. -/
def pairVec (n i j : ℕ) : Vec :=
  (List.range n).map (fun k => if k = j then (-1 : ℝ) else if k = i then 1 else 0)

/-- `pos + t * z` for the pair basis vector `t`. -/
def updatePair (pos : Vec) (i j : ℕ) (z : ℝ) : Vec :=
  List.zipWith (fun x t => x + t * z) pos (pairVec pos.length i j)

/-- The `perturb` value of `loglike_nz`: `pair_step * (pdfs[:, i] - pdfs[:, j])` when both
`pair` and `pair_step` are provided, and the scalar `0.` (broadcast to a zero vector of
length `Nobs`) otherwise. -/
def perturbVec (pdfs : List Vec) (pair : Option (ℕ × ℕ)) (pair_step : Option ℝ) : Vec :=
  match pair, pair_step with
  | some (i, j), some s => List.zipWith (fun a b => s * (a - b)) (col pdfs i) (col pdfs j)
  | _, _ => List.replicate pdfs.length 0

/-- The vector `overlap + perturb` of the valid branch of `loglike_nz`, where `overlap` is
the cached argument if provided and `np.dot(pdfs, nz)` otherwise. -/
def overlapPerturbed (nz : Vec) (pdfs : List Vec) (ov : Option Vec)
    (pair : Option (ℕ × ℕ)) (pair_step : Option ℝ) : Vec :=
  List.zipWith (fun a b => a + b) (ov.getD (matVec pdfs nz)) (perturbVec pdfs pair pair_step)

open Classical in
/-- The likelihood engine `loglike_nz`.  If any component of `nz` is invalid the result is
`(-inf, np.zeros(len(pdfs)))`; otherwise the log-likelihood is the sum of the logs of the
(possibly incrementally perturbed) overlap values, returned together with `overlap + perturb`. -/
def loglike_nz (nz : Vec) (pdfs : List Vec) (ov : Option Vec)
    (pair : Option (ℕ × ℕ)) (pair_step : Option ℝ) : EReal × Vec :=
  if ∃ x ∈ nz, x < 0 then
    (⊥, List.replicate pdfs.length 0)
  else
    ((((overlapPerturbed nz pdfs ov pair pair_step).map Real.log).sum : ℝ),
      overlapPerturbed nz pdfs ov pair pair_step)

/-! ### Basic lemmas about the vector operations -/

theorem length_pairVec (n i j : ℕ) : (pairVec n i j).length = n := by
  simp [pairVec]

theorem length_updatePair (pos : Vec) (i j : ℕ) (z : ℝ) :
    (updatePair pos i j z).length = pos.length := by
  simp [updatePair, length_pairVec]

theorem getElem_pairVec (n i j k : ℕ) (hk : k < (pairVec n i j).length) :
    (pairVec n i j)[k] = if k = j then (-1 : ℝ) else if k = i then 1 else 0 := by
  simp [pairVec]

theorem getElem_updatePair (pos : Vec) (i j : ℕ) (z : ℝ) (k : ℕ)
    (hk : k < (updatePair pos i j z).length) (hk2 : k < pos.length) :
    (updatePair pos i j z)[k] = pos[k] +
      (if k = j then (-1 : ℝ) else if k = i then 1 else 0) * z := by
  simp [updatePair, pairVec]

theorem zipWith_add_replicate_zero (l : Vec) (n : ℕ) (h : l.length = n) :
    List.zipWith (fun a b => a + b) l (List.replicate n (0 : ℝ)) = l := by
  induction l generalizing n with
  | nil => simp
  | cons a t ih =>
    cases n with
    | zero => simp at h
    | succ m =>
      simp only [List.length_cons, Nat.succ.injEq] at h
      simp [List.replicate_succ, ih m h]

theorem sum_map_range (f : ℕ → ℝ) (n : ℕ) :
    (((List.range n).map f).sum) = ∑ k ∈ Finset.range n, f k := by
  induction n with
  | zero => simp
  | succ m ih => simp [List.range_succ, Finset.sum_range_succ, ih]

theorem dot_map_range (row : Vec) (n : ℕ) (f : ℕ → ℝ) (h : row.length = n) :
    dot row ((List.range n).map f) = ∑ k ∈ Finset.range n, row.getD k 0 * f k := by
  induction row generalizing n f with
  | nil =>
    subst h; simp [dot]
  | cons a t ih =>
    cases n with
    | zero => simp at h
    | succ m =>
      simp only [List.length_cons, Nat.succ.injEq] at h
      rw [List.range_succ_eq_map]
      simp only [List.map_cons, List.map_map]
      have : dot (a :: t) (f 0 :: (List.range m).map (f ∘ Nat.succ)) =
          a * f 0 + dot t ((List.range m).map (fun k => f (k + 1))) := by
        simp [dot, Function.comp_def]
      rw [this, ih m (fun k => f (k + 1)) h, Finset.sum_range_succ']
      simp [add_comm]

theorem dot_add_smul (row nz tv : Vec) (z : ℝ)
    (h1 : row.length = nz.length) (h2 : nz.length = tv.length) :
    dot row (List.zipWith (fun x t => x + t * z) nz tv) =
      dot row nz + z * dot row tv := by
  induction row generalizing nz tv with
  | nil => simp [dot]
  | cons a r ih =>
    cases nz with
    | nil => simp at h1
    | cons b nzt =>
      cases tv with
      | nil => simp at h2
      | cons c tvt =>
        simp only [List.length_cons, Nat.succ.injEq] at h1 h2
        simp only [List.zipWith_cons_cons, dot, List.sum_cons]
        have := ih nzt tvt h1 h2
        simp only [dot] at this
        rw [this]
        ring

theorem dot_pairVec (row : Vec) (n i j : ℕ) (h : row.length = n)
    (hij : i ≠ j) (hi : i < n) (hj : j < n) :
    dot row (pairVec n i j) = row.getD i 0 - row.getD j 0 := by
  rw [pairVec, dot_map_range row n _ h]
  have hsplit : ∀ k, row.getD k 0 * (if k = j then (-1 : ℝ) else if k = i then 1 else 0) =
      (if k = i then row.getD k 0 else 0) - (if k = j then row.getD k 0 else 0) := by
    intro k
    by_cases hkj : k = j
    · simp [hkj, Ne.symm hij]
    · by_cases hki : k = i
      · simp [hki, hkj, hij]
      · simp [hki, hkj]
  simp only [hsplit]
  rw [Finset.sum_sub_distrib]
  rw [Finset.sum_ite_eq' (Finset.range n) i (fun k => row.getD k 0),
    Finset.sum_ite_eq' (Finset.range n) j (fun k => row.getD k 0)]
  simp [Finset.mem_range.mpr hi, Finset.mem_range.mpr hj]

theorem sum_pairVec (n i j : ℕ) (hij : i ≠ j) (hi : i < n) (hj : j < n) :
    (pairVec n i j).sum = 0 := by
  rw [pairVec, sum_map_range]
  have hsplit : ∀ k, (if k = j then (-1 : ℝ) else if k = i then 1 else 0) =
      (if k = i then (1 : ℝ) else 0) - (if k = j then (1 : ℝ) else 0) := by
    intro k
    by_cases hkj : k = j
    · simp [hkj, Ne.symm hij]
    · by_cases hki : k = i
      · simp [hki, hkj, hij]
      · simp [hki, hkj]
  simp only [hsplit]
  rw [Finset.sum_sub_distrib]
  rw [Finset.sum_ite_eq' (Finset.range n) i (fun _ => (1 : ℝ)),
    Finset.sum_ite_eq' (Finset.range n) j (fun _ => (1 : ℝ))]
  simp [Finset.mem_range.mpr hi, Finset.mem_range.mpr hj]

theorem sum_zipWith_add_smul (l tv : Vec) (z : ℝ) (h : l.length = tv.length) :
    (List.zipWith (fun x t => x + t * z) l tv).sum = l.sum + tv.sum * z := by
  induction l generalizing tv with
  | nil =>
    cases tv with
    | nil => simp
    | cons c t => simp at h
  | cons a r ih =>
    cases tv with
    | nil => simp at h
    | cons c t =>
      simp only [List.length_cons, Nat.succ.injEq] at h
      simp only [List.zipWith_cons_cons, List.sum_cons, ih t h]
      ring

theorem sum_updatePair (pos : Vec) (i j : ℕ) (z : ℝ)
    (hij : i ≠ j) (hi : i < pos.length) (hj : j < pos.length) :
    (updatePair pos i j z).sum = pos.sum := by
  rw [updatePair, sum_zipWith_add_smul pos _ z (by simp [length_pairVec]),
    sum_pairVec pos.length i j hij hi hj]
  ring

/-! ### Branch lemmas for the likelihood engine -/

theorem loglike_nz_invalid (nz : Vec) (pdfs : List Vec) (ov : Option Vec)
    (pair : Option (ℕ × ℕ)) (pair_step : Option ℝ) (h : ∃ x ∈ nz, x < 0) :
    loglike_nz nz pdfs ov pair pair_step = (⊥, List.replicate pdfs.length 0) := by
  rw [loglike_nz, if_pos h]

theorem loglike_nz_valid (nz : Vec) (pdfs : List Vec) (ov : Option Vec)
    (pair : Option (ℕ × ℕ)) (pair_step : Option ℝ) (h : ∀ x ∈ nz, 0 ≤ x) :
    loglike_nz nz pdfs ov pair pair_step =
      (((((overlapPerturbed nz pdfs ov pair pair_step).map Real.log).sum : ℝ) : EReal),
        overlapPerturbed nz pdfs ov pair pair_step) := by
  rw [loglike_nz, if_neg]
  rintro ⟨x, hx, hlt⟩
  exact absurd (h x hx) (not_le.mpr hlt)

/-! ### The sampler -/

/-- The default prior substituted by `run_mcmc` and `sample` when `logprior_nz is None`:
`def logprior_nz(pos, ...): return 0.` -/
def zeroPrior : Vec → EReal := fun _ => 0

/-- The injected `~numpy.random.RandomState`, modelled as the streams of values the
sampler consumes from it: the random index pairs of the Gibbs sweeps, the standard-normal
draws `rstate.randn()` and the exponential draws `rstate.exponential()`, each indexed by
when the sampler uses them.  A fixed seed corresponds to a fixed `RandomSource`. -/
structure RandomSource where
  pairs : ℕ → ℕ × ℕ
  norms : ℕ → ℝ
  exps : ℕ → ℝ

/-- The working state of the sampler inside `sample`: the current position, log-posterior, and
cached overlap vector. -/
structure MCState where
  pos : Vec
  lnpost : EReal
  overlap : Vec

/-- Minimum of four reals, `np.min(np.append(pos[pair], 1. - pos[pair]))`. -/
def min4 (a b c d : ℝ) : ℝ := min a (min b (min c d))

/-- The absolute probing range: `scale = 1e-4 * np.min(np.append(pos[pair], 1. - pos[pair]))`. -/
def probeScale (pos : Vec) (i j : ℕ) : ℝ :=
  1e-4 * min4 (pos.getD i 0) (pos.getD j 0) (1 - pos.getD i 0) (1 - pos.getD j 0)

/-- Absolute value on `EReal` (the model of float `abs`, where `abs(-inf) = inf`). -/
def eabs (x : EReal) : EReal := max x (-x)

/-- One side of the numerical gradient probe: `loglike_nz(pos, pdfs, overlap=overlap,
pair=pair, pair_step=d) + logprior_nz(pos + t*d)`. -/
def lnpostPerturbed (pdfs : List Vec) (prior : Vec → EReal) (st : MCState)
    (i j : ℕ) (d : ℝ) : EReal :=
  (loglike_nz st.pos pdfs (some st.overlap) (some (i, j)) (some d)).1 +
    prior (updatePair st.pos i j d)

/-- The finite-difference gradient estimate `grad = (lnp1 - lnp2) / scale`. -/
def gradEstimate (pdfs : List Vec) (prior : Vec → EReal) (st : MCState)
    (i j : ℕ) (scale : ℝ) : EReal :=
  (lnpostPerturbed pdfs prior st i j (scale / 2) -
    lnpostPerturbed pdfs prior st i j (-(scale / 2))) / (scale : EReal)

open Classical in
/-- The adaptive proposal scale: `gscale = min(abs(1. / grad), abs(scale * 1e4))` when
`grad != 0.` and `gscale = abs(scale)` otherwise. -/
def proposalScale (grad : EReal) (scale : ℝ) : ℝ :=
  if grad = 0 then |scale| else (min (eabs (1 / grad)) ((|scale * 1e4| : ℝ) : EReal)).toReal

/-- One Metropolis-Hastings proposal within a Gibbs sub-step: draw `z = randn * gscale`,
form `pos_new = pos + t * z`, evaluate the candidate incrementally, and accept iff
`-exponential() < lnpost_new - lnpost`. -/
def mhStep (pdfs : List Vec) (prior : Vec → EReal) (i j : ℕ) (gscale : ℝ)
    (st : MCState) (zraw e : ℝ) : MCState :=
  let z := zraw * gscale
  let pos_new := updatePair st.pos i j z
  let r := loglike_nz pos_new pdfs (some st.overlap) (some (i, j)) (some z)
  let lnpost_new := r.1 + prior pos_new
  if ((-e : ℝ) : EReal) < lnpost_new - st.lnpost then ⟨pos_new, lnpost_new, r.2⟩ else st

/-- One Gibbs sub-step over the random pair drawn at global index `idx`: compute the
probing scale, the gradient estimate and the proposal scale from the current state, then
run `mh` Metropolis-Hastings proposals with that fixed proposal scale. -/
def gibbsPair (pdfs : List Vec) (prior : Vec → EReal) (rs : RandomSource)
    (mh : ℕ) (idx : ℕ) (st : MCState) : MCState :=
  let i := (rs.pairs idx).1
  let j := (rs.pairs idx).2
  let gscale := proposalScale
    (gradEstimate pdfs prior st i j (probeScale st.pos i j)) (probeScale st.pos i j)
  (List.range mh).foldl
    (fun s k => mhStep pdfs prior i j gscale s (rs.norms (idx * mh + k)) (rs.exps (idx * mh + k)))
    st

/-- One outer iteration: `thin` Gibbs sub-steps over the pairs drawn for iteration `it`. -/
def gibbsSweep (pdfs : List Vec) (prior : Vec → EReal) (rs : RandomSource)
    (thin mh : ℕ) (it : ℕ) (st : MCState) : MCState :=
  (List.range thin).foldl (fun s p => gibbsPair pdfs prior rs mh (it * thin + p) s) st

/-- The generator loop of `sample`: run `n` more outer iterations starting at iteration
index `it`, yielding `(pos, lnpost)` after each one. -/
def sampleFrom (pdfs : List Vec) (prior : Vec → EReal) (rs : RandomSource)
    (thin mh : ℕ) : ℕ → ℕ → MCState → List (Vec × EReal)
  | 0, _, _ => []
  | n + 1, it, st =>
    let st1 := gibbsSweep pdfs prior rs thin mh it st
    (st1.pos, st1.lnpost) :: sampleFrom pdfs prior rs thin mh n (it + 1) st1

/-- `Ndim`, the second component of `self.pdfs.shape`. -/
def Ndim (pdfs : List Vec) : ℕ := (pdfs.headD []).length

/-- The stacked-PDFs starting point `self.pdfs.sum(axis=0) / self.pdfs.sum()`. -/
def stackedInit (pdfs : List Vec) : Vec :=
  (pdfs.foldl (fun acc row => List.zipWith (fun a b => a + b) acc row)
      (List.replicate (Ndim pdfs) 0)).map
    (fun x => x / (pdfs.map List.sum).sum)

/-- The starting position used by `sample` itself: `pos_init` when provided and the
stacked PDFs otherwise.  (`sample` has no access to previously recorded samples.) -/
def sampleStart (pdfs : List Vec) (pos_init : Option Vec) : Vec :=
  pos_init.getD (stackedInit pdfs)

/-- The initial working state of `sample`: a fresh full likelihood evaluation
`lnlike, overlap = loglike_nz(pos, self.pdfs, return_overlap=True)` plus the prior. -/
def initState (pdfs : List Vec) (prior : Vec → EReal) (pos : Vec) : MCState :=
  ⟨pos, (loglike_nz pos pdfs none none none).1 + prior pos,
    (loglike_nz pos pdfs none none none).2⟩

/-- The generator `population_sampler.sample`, returning the list of yielded
`(pos, lnpost)` pairs in order.  A `none` prior is replaced by the zero prior. -/
def sample (pdfs : List Vec) (priorOpt : Option (Vec → EReal)) (pos_init : Option Vec)
    (Niter thin mh : ℕ) (rs : RandomSource) : List (Vec × EReal) :=
  sampleFrom pdfs (priorOpt.getD zeroPrior) rs thin mh Niter 0
    (initState pdfs (priorOpt.getD zeroPrior) (sampleStart pdfs pos_init))

/-- The state owned by a `population_sampler` object: the immutable observation table and
the two parallel sample lists. -/
structure SamplerState where
  pdfs : List Vec
  samples : List Vec
  samples_lnp : List EReal

/-- `population_sampler.results`: the pair `(np.array(self.samples), np.array(self.samples_lnp))`. -/
def results (s : SamplerState) : List Vec × List EReal := (s.samples, s.samples_lnp)

/-- `population_sampler.reset`. -/
def reset (s : SamplerState) : SamplerState := { s with samples := [], samples_lnp := [] }

/-- The starting position that `run_mcmc` RESOLVES (explicit argument, else the last
recorded sample via `self.samples[-1]`, else the stacked PDFs).  In the source this value
is bound to the local `pos` and then never used: the call into `self.sample` passes the
raw `pos_init` argument instead, so this resolution is dead code. -/
def runResolvedPos (s : SamplerState) (pos_init : Option Vec) : Vec :=
  match pos_init with
  | some p => p
  | none =>
    match s.samples.getLast? with
    | some last => last
    | none => stackedInit s.pdfs

/-- `population_sampler.run_mcmc` (without the `verbose` progress printing, a pure side
effect): substitute the default prior when none is given, iterate `sample`, and append
each yielded pair to the two sample lists.  Note that the source forwards the raw
`pos_init` argument to `self.sample` (see `runResolvedPos`). -/
def run_mcmc (s : SamplerState) (Niter : ℕ) (priorOpt : Option (Vec → EReal))
    (pos_init : Option Vec) (thin mh : ℕ) (rs : RandomSource) : SamplerState :=
  { s with
    samples := s.samples ++
      (sample s.pdfs (some (priorOpt.getD zeroPrior)) pos_init Niter thin mh rs).map Prod.fst,
    samples_lnp := s.samples_lnp ++
      (sample s.pdfs (some (priorOpt.getD zeroPrior)) pos_init Niter thin mh rs).map Prod.snd }

/-! ### Incremental overlap algebra (claim C1) -/

theorem length_matVec (pdfs : List Vec) (nz : Vec) : (matVec pdfs nz).length = pdfs.length := by
  simp [matVec]

theorem dot_updatePair (row nz : Vec) (i j : ℕ) (z : ℝ) (h : row.length = nz.length)
    (hij : i ≠ j) (hi : i < nz.length) (hj : j < nz.length) :
    dot row (updatePair nz i j z) = dot row nz + z * (row.getD i 0 - row.getD j 0) := by
  rw [updatePair, dot_add_smul row nz _ z h (length_pairVec nz.length i j).symm,
    dot_pairVec row nz.length i j h hij hi hj]

theorem updatePair_nonneg (nz : Vec) (i j : ℕ) (z : ℝ)
    (hnn : ∀ x ∈ nz, 0 ≤ x) (hiz : 0 ≤ nz.getD i 0 + z) (hjz : 0 ≤ nz.getD j 0 - z) :
    ∀ x ∈ updatePair nz i j z, 0 ≤ x := by
  intro x hx
  rw [List.mem_iff_getElem] at hx
  obtain ⟨k, hk, rfl⟩ := hx
  have hk2 : k < nz.length := by simpa [length_updatePair] using hk
  rw [getElem_updatePair nz i j z k hk hk2]
  have hgetD : nz.getD k 0 = nz[k] := List.getD_eq_getElem nz 0 hk2
  by_cases hkj : k = j
  · subst hkj
    rw [if_pos rfl]
    rw [hgetD] at hjz
    linarith
  · by_cases hki : k = i
    · subst hki
      rw [if_neg hkj, if_pos rfl]
      rw [hgetD] at hiz
      linarith
    · rw [if_neg hkj, if_neg hki]
      have := hnn nz[k] (List.getElem_mem hk2)
      linarith

theorem overlapPerturbed_full (nz : Vec) (pdfs : List Vec) :
    overlapPerturbed nz pdfs none none none = matVec pdfs nz := by
  unfold overlapPerturbed perturbVec
  exact zipWith_add_replicate_zero _ _ (length_matVec pdfs nz)

theorem overlapPerturbed_incremental (nz : Vec) (pdfs : List Vec) (i j : ℕ) (z : ℝ)
    (hrow : ∀ row ∈ pdfs, row.length = nz.length)
    (hij : i ≠ j) (hi : i < nz.length) (hj : j < nz.length) :
    overlapPerturbed nz pdfs (some (matVec pdfs nz)) (some (i, j)) (some z) =
      matVec pdfs (updatePair nz i j z) := by
  apply List.ext_getElem
  · simp [overlapPerturbed, perturbVec, matVec, col]
  · intro k hk1 hk2
    have hkp : k < pdfs.length := by simpa [length_matVec] using hk2
    simp only [overlapPerturbed, perturbVec, Option.getD_some, matVec, col,
      List.getElem_zipWith, List.getElem_map]
    rw [dot_updatePair pdfs[k] nz i j z (hrow pdfs[k] (List.getElem_mem hkp)) hij hi hj]

/-- Claim C1 (amended): for a histogram `nz` with non-negative (finite) components, a pair
of distinct in-range bin indices `(i, j)`, and a step `z` such that the perturbed bins
`nz[i] + z` and `nz[j] - z` are also non-negative, `loglike_nz` called with the cached
overlap `pdfs · nz`, `pair = (i, j)` and `pair_step = z` returns exactly the same
log-likelihood and the same overlap vector as the full recomputation of `loglike_nz` on
the explicitly perturbed histogram (the original claim is false without the condition on
the perturbed bins, because the validity check inspects only the unperturbed `nz`). -/
theorem C1_incremental_full_equivalence (nz : Vec) (pdfs : List Vec) (i j : ℕ) (z : ℝ)
    (hrow : ∀ row ∈ pdfs, row.length = nz.length)
    (hij : i ≠ j) (hi : i < nz.length) (hj : j < nz.length)
    (hnn : ∀ x ∈ nz, 0 ≤ x)
    (hiz : 0 ≤ nz.getD i 0 + z) (hjz : 0 ≤ nz.getD j 0 - z) :
    loglike_nz nz pdfs (some (matVec pdfs nz)) (some (i, j)) (some z) =
      loglike_nz (updatePair nz i j z) pdfs none none none := by
  rw [loglike_nz_valid _ _ _ _ _ hnn,
    loglike_nz_valid _ _ _ _ _ (updatePair_nonneg nz i j z hnn hiz hjz),
    overlapPerturbed_full, overlapPerturbed_incremental nz pdfs i j z hrow hij hi hj]

/-- Claim C1 (counterexample to the claim as stated): at `nz = [1, 0]`, `pdfs = [[1, 0]]`,
`pair = (0, 1)`, `step = 1`, the perturbed histogram is `[2, -1]`, so the full
recomputation takes the invalid branch and returns `(-inf, [0])`, while the incremental
call (whose validity check sees only `nz = [1, 0]`) returns a finite log-likelihood. -/
theorem C1_counterexample :
    loglike_nz [1, 0] [[1, 0]] (some (matVec [[1, 0]] [1, 0])) (some (0, 1)) (some 1) ≠
      loglike_nz (updatePair [1, 0] 0 1 1) [[1, 0]] none none none := by
  intro heq
  have hvalid : ∀ x ∈ ([1, 0] : Vec), 0 ≤ x := by
    intro x hx
    simp only [List.mem_cons, List.not_mem_nil, or_false] at hx
    rcases hx with rfl | rfl <;> norm_num
  have hup : updatePair [1, 0] 0 1 1 = [2, -1] := by
    simp [updatePair, pairVec, List.range_succ]
    norm_num
  rw [loglike_nz_valid _ _ _ _ _ hvalid, hup,
    loglike_nz_invalid _ _ _ _ _ ⟨-1, by simp, by norm_num⟩] at heq
  exact EReal.coe_ne_bot _ (congrArg Prod.fst heq)

/-- Witness for the amended claim C1 at a concrete input. -/
theorem C1_witness :
    loglike_nz [1, 0] [[1, 0]] (some (matVec [[1, 0]] [1, 0])) (some (0, 1)) (some (-1)) =
      loglike_nz (updatePair [1, 0] 0 1 (-1)) [[1, 0]] none none none := by
  apply C1_incremental_full_equivalence [1, 0] [[1, 0]] 0 1 (-1)
  · intro row hrow
    simp only [List.mem_cons, List.not_mem_nil, or_false] at hrow
    subst hrow
    simp
  · norm_num
  · norm_num
  · norm_num
  · intro x hx
    simp only [List.mem_cons, List.not_mem_nil, or_false] at hx
    rcases hx with rfl | rfl <;> norm_num
  · norm_num
  · norm_num

/-- Claim C4: if any component of the input histogram is negative (the model of
"non-finite or negative": real numbers are always finite), `loglike_nz` returns
log-likelihood `-inf` and an all-zero overlap vector of length `Nobs`, regardless of the
other arguments. -/
theorem C4_invalid_input_signalling (nz : Vec) (pdfs : List Vec) (ov : Option Vec)
    (pair : Option (ℕ × ℕ)) (pair_step : Option ℝ)
    (h : ∃ x ∈ nz, x < 0) :
    (loglike_nz nz pdfs ov pair pair_step).1 = ⊥ ∧
      (loglike_nz nz pdfs ov pair pair_step).2 = List.replicate pdfs.length 0 := by
  rw [loglike_nz_invalid nz pdfs ov pair pair_step h]
  exact ⟨rfl, rfl⟩

/-- Witness for claim C4 at a concrete input. -/
theorem C4_witness :
    (loglike_nz [-1] [[1]] none none none).1 = ⊥ ∧
      (loglike_nz [-1] [[1]] none none none).2 = List.replicate 1 0 :=
  C4_invalid_input_signalling [-1] [[1]] none none none ⟨-1, by simp, by norm_num⟩

/-- Claim C10: the invalid branch of `loglike_nz` depends only on the unperturbed
histogram `nz`: whenever all components of `nz` are non-negative (hence valid; real
components are always finite), the result is the valid branch — the log of each
(possibly non-positive) perturbed overlap entry summed up — for every cached overlap,
pair and pair step, and the `-inf` signal never fires. -/
theorem C10_validity_scope (nz : Vec) (pdfs : List Vec) (ov : Option Vec)
    (pair : Option (ℕ × ℕ)) (pair_step : Option ℝ)
    (h : ∀ x ∈ nz, 0 ≤ x) :
    loglike_nz nz pdfs ov pair pair_step =
      (((((overlapPerturbed nz pdfs ov pair pair_step).map Real.log).sum : ℝ) : EReal),
        overlapPerturbed nz pdfs ov pair pair_step) ∧
      (loglike_nz nz pdfs ov pair pair_step).1 ≠ ⊥ := by
  refine ⟨loglike_nz_valid nz pdfs ov pair pair_step h, ?_⟩
  rw [loglike_nz_valid nz pdfs ov pair pair_step h]
  exact EReal.coe_ne_bot _

/-- Witness for claim C10 at a concrete input whose pair step makes the implied perturbed
bin value (and the perturbed overlap entry `1 + 2 * (0 - 1) = -1`) negative: the invalid
branch is still not taken. -/
theorem C10_witness :
    loglike_nz [1, 0] [[0, 1]] (some [1]) (some (0, 1)) (some 2) =
      (((((overlapPerturbed [1, 0] [[0, 1]] (some [1]) (some (0, 1)) (some 2)).map
          Real.log).sum : ℝ) : EReal),
        overlapPerturbed [1, 0] [[0, 1]] (some [1]) (some (0, 1)) (some 2)) ∧
      (loglike_nz [1, 0] [[0, 1]] (some [1]) (some (0, 1)) (some 2)).1 ≠ ⊥ :=
  C10_validity_scope [1, 0] [[0, 1]] (some [1]) (some (0, 1)) (some 2) (by
    intro x hx
    simp only [List.mem_cons, List.not_mem_nil, or_false] at hx
    rcases hx with rfl | rfl <;> norm_num)

/-- Claim C5: from a current state with finite log-posterior, a Metropolis-Hastings
candidate histogram containing a negative component has log-posterior `-inf`, the
acceptance test `-e < lnpost_new - lnpost` fails for every (finite, real) exponential
draw `e`, and `mhStep` leaves the `(pos, lnpost, overlap)` triple unchanged. -/
theorem C5_invalid_state_rejection (pdfs : List Vec) (prior : Vec → EReal) (i j : ℕ)
    (gscale : ℝ) (st : MCState) (zraw e : ℝ)
    (hbot : st.lnpost ≠ ⊥) (htop : st.lnpost ≠ ⊤)
    (hneg : ∃ x ∈ updatePair st.pos i j (zraw * gscale), x < 0) :
    (loglike_nz (updatePair st.pos i j (zraw * gscale)) pdfs (some st.overlap)
        (some (i, j)) (some (zraw * gscale))).1 +
      prior (updatePair st.pos i j (zraw * gscale)) = ⊥ ∧
    mhStep pdfs prior i j gscale st zraw e = st := by
  have hln : (loglike_nz (updatePair st.pos i j (zraw * gscale)) pdfs (some st.overlap)
      (some (i, j)) (some (zraw * gscale))).1 = ⊥ := by
    rw [loglike_nz_invalid _ _ _ _ _ hneg]
  constructor
  · rw [hln]
    exact EReal.bot_add _
  · simp only [mhStep]
    rw [hln, EReal.bot_add, EReal.bot_sub]
    rw [if_neg (not_lt_bot)]

/-- Witness for claim C5 at a concrete input. -/
theorem C5_witness :
    mhStep [[1]] zeroPrior 0 1 1 ⟨[1], 0, [1]⟩ (-2) 1 = ⟨[1], 0, [1]⟩ :=
  (C5_invalid_state_rejection [[1]] zeroPrior 0 1 1 ⟨[1], 0, [1]⟩ (-2) 1
    (EReal.coe_ne_bot 0) (EReal.coe_ne_top 0)
    ⟨-1, by norm_num [updatePair, pairVec, List.range_succ], by norm_num⟩).2

/-! ### The simplex sum invariant (claim C2) -/

/-- The invariant carried through a run: the working position keeps its component sum
equal to 1 and its dimension fixed. -/
def PosInv (L : ℕ) (st : MCState) : Prop := st.pos.sum = 1 ∧ st.pos.length = L

theorem foldl_preserve {α β : Type} (P : β → Prop) (f : β → α → β) (l : List α) (b : β)
    (hb : P b) (hstep : ∀ b1 a, P b1 → P (f b1 a)) : P (l.foldl f b) := by
  induction l generalizing b with
  | nil => exact hb
  | cons a t ih => exact ih (f b a) (hstep b a hb)

theorem mhStep_pos_inv (pdfs : List Vec) (prior : Vec → EReal) (i j : ℕ) (gscale : ℝ)
    (st : MCState) (zraw e : ℝ) (hij : i ≠ j) (hi : i < st.pos.length)
    (hj : j < st.pos.length) :
    (mhStep pdfs prior i j gscale st zraw e).pos.sum = st.pos.sum ∧
      (mhStep pdfs prior i j gscale st zraw e).pos.length = st.pos.length := by
  simp only [mhStep]
  split
  · exact ⟨sum_updatePair st.pos i j _ hij hi hj, length_updatePair st.pos i j _⟩
  · exact ⟨rfl, rfl⟩

theorem gibbsPair_inv (L : ℕ) (pdfs : List Vec) (prior : Vec → EReal) (rs : RandomSource)
    (mh idx : ℕ) (st : MCState)
    (hp : (rs.pairs idx).1 ≠ (rs.pairs idx).2 ∧
      (rs.pairs idx).1 < L ∧ (rs.pairs idx).2 < L)
    (h : PosInv L st) : PosInv L (gibbsPair pdfs prior rs mh idx st) := by
  simp only [gibbsPair]
  refine foldl_preserve (PosInv L) _ _ st h ?_
  intro b1 a hb1
  obtain ⟨hsum, hlen⟩ := hb1
  have hi : (rs.pairs idx).1 < b1.pos.length := by omega
  have hj : (rs.pairs idx).2 < b1.pos.length := by omega
  have h1 := mhStep_pos_inv pdfs prior (rs.pairs idx).1 (rs.pairs idx).2
    (proposalScale
      (gradEstimate pdfs prior st (rs.pairs idx).1 (rs.pairs idx).2
        (probeScale st.pos (rs.pairs idx).1 (rs.pairs idx).2))
      (probeScale st.pos (rs.pairs idx).1 (rs.pairs idx).2))
    b1 (rs.norms (idx * mh + a)) (rs.exps (idx * mh + a)) hp.1 hi hj
  exact ⟨h1.1.trans hsum, h1.2.trans hlen⟩

theorem gibbsSweep_inv (L : ℕ) (pdfs : List Vec) (prior : Vec → EReal) (rs : RandomSource)
    (thin mh it : ℕ) (st : MCState)
    (hpairs : ∀ idx, (rs.pairs idx).1 ≠ (rs.pairs idx).2 ∧
      (rs.pairs idx).1 < L ∧ (rs.pairs idx).2 < L)
    (h : PosInv L st) : PosInv L (gibbsSweep pdfs prior rs thin mh it st) := by
  simp only [gibbsSweep]
  refine foldl_preserve (PosInv L) _ _ st h ?_
  intro b1 a hb1
  exact gibbsPair_inv L pdfs prior rs mh (it * thin + a) b1 (hpairs (it * thin + a)) hb1

theorem sampleFrom_pos_inv (L : ℕ) (pdfs : List Vec) (prior : Vec → EReal)
    (rs : RandomSource) (thin mh : ℕ)
    (hpairs : ∀ idx, (rs.pairs idx).1 ≠ (rs.pairs idx).2 ∧
      (rs.pairs idx).1 < L ∧ (rs.pairs idx).2 < L) :
    ∀ (n it : ℕ) (st : MCState), PosInv L st → ∀ k, k < n →
      (((sampleFrom pdfs prior rs thin mh n it st).getD k ([], 0)).1).sum = 1 := by
  intro n
  induction n with
  | zero => intro it st h k hk; omega
  | succ m ih =>
    intro it st h k hk
    have h1 : PosInv L (gibbsSweep pdfs prior rs thin mh it st) :=
      gibbsSweep_inv L pdfs prior rs thin mh it st hpairs h
    cases k with
    | zero =>
      simpa [sampleFrom] using h1.1
    | succ k2 =>
      simp only [sampleFrom, List.getD_cons_succ]
      exact ih (it + 1) _ h1 k2 (by omega)

/-- Claim C2: starting the sampler from a histogram whose components sum to 1, with the
random pairs always distinct and in range (as `rstate.choice(Ndim, size=2,
replace=False)` guarantees), every pairwise move `pos + t * z` preserves the component
sum exactly, so every recorded sample of the run has component sum exactly 1 (exact real
arithmetic models the floating-point tolerance of the claim). -/
theorem C2_simplex_sum_invariant (pdfs : List Vec) (priorOpt : Option (Vec → EReal))
    (pos0 : Vec) (Niter thin mh : ℕ) (rs : RandomSource)
    (hpairs : ∀ idx, (rs.pairs idx).1 ≠ (rs.pairs idx).2 ∧
      (rs.pairs idx).1 < pos0.length ∧ (rs.pairs idx).2 < pos0.length)
    (hsum : pos0.sum = 1) :
    (∀ (pos : Vec) (i2 j2 : ℕ) (z : ℝ), i2 ≠ j2 → i2 < pos.length → j2 < pos.length →
      (updatePair pos i2 j2 z).sum = pos.sum) ∧
    ∀ k, k < Niter →
      (((sample pdfs priorOpt (some pos0) Niter thin mh rs).getD k ([], 0)).1).sum = 1 := by
  refine ⟨fun pos i2 j2 z h1 h2 h3 => sum_updatePair pos i2 j2 z h1 h2 h3, ?_⟩
  intro k hk
  have h0 : PosInv pos0.length
      (initState pdfs (priorOpt.getD zeroPrior) (sampleStart pdfs (some pos0))) :=
    ⟨hsum, rfl⟩
  exact sampleFrom_pos_inv pos0.length pdfs (priorOpt.getD zeroPrior) rs thin mh hpairs
    Niter 0 _ h0 k hk

/-- Witness for claim C2 at a concrete input. -/
theorem C2_witness :
    (updatePair [1 / 2, 1 / 2] 0 1 (1 / 3)).sum = ([1 / 2, 1 / 2] : Vec).sum ∧
    (((sample [[1, 0]] none (some [1 / 2, 1 / 2]) 1 0 0
        ⟨fun _ => (0, 1), fun _ => 0, fun _ => 0⟩).getD 0 ([], 0)).1).sum = 1 :=
  ⟨(C2_simplex_sum_invariant [[1, 0]] none [1 / 2, 1 / 2] 1 0 0
      ⟨fun _ => (0, 1), fun _ => 0, fun _ => 0⟩
      (fun _ => ⟨by norm_num, by norm_num, by norm_num⟩) (by norm_num)).1
      [1 / 2, 1 / 2] 0 1 (1 / 3) (by norm_num) (by norm_num) (by norm_num),
    (C2_simplex_sum_invariant [[1, 0]] none [1 / 2, 1 / 2] 1 0 0
      ⟨fun _ => (0, 1), fun _ => 0, fun _ => 0⟩
      (fun _ => ⟨by norm_num, by norm_num, by norm_num⟩) (by norm_num)).2 0 (by norm_num)⟩

/-! ### The adaptive proposal scale (claim C6) -/

theorem ereal_coe_min (a b : ℝ) : ((min a b : ℝ) : EReal) = min (a : EReal) (b : EReal) := by
  rcases le_total a b with h | h
  · rw [min_eq_left h, min_eq_left (EReal.coe_le_coe_iff.mpr h)]
  · rw [min_eq_right h, min_eq_right (EReal.coe_le_coe_iff.mpr h)]

theorem ereal_coe_max (a b : ℝ) : ((max a b : ℝ) : EReal) = max (a : EReal) (b : EReal) := by
  rcases le_total a b with h | h
  · rw [max_eq_right h, max_eq_right (EReal.coe_le_coe_iff.mpr h)]
  · rw [max_eq_left h, max_eq_left (EReal.coe_le_coe_iff.mpr h)]

theorem eabs_coe (r : ℝ) : eabs (r : EReal) = ((|r| : ℝ) : EReal) := by
  rw [eabs, abs, ← EReal.coe_neg, ← ereal_coe_max]

/-- Claim C6: for a drawn pair `(i, j)`, the probing step scale is
`1e-4 * min(pos[i], pos[j], 1 - pos[i], 1 - pos[j])`; the gradient estimate is the
difference of the log-posteriors evaluated at `+scale/2` and `-scale/2` divided by
`scale`; and the proposal scale equals `min(1/|grad|, |scale * 1e4|)` for a nonzero
(finite) gradient and `|scale|` for a gradient of exactly zero, so a zero gradient never
divides by zero. -/
theorem C6_adaptive_proposal_scale (pdfs : List Vec) (prior : Vec → EReal) (st : MCState)
    (i j : ℕ) (s : ℝ) :
    probeScale st.pos i j =
      1e-4 * min (min (st.pos.getD i 0) (st.pos.getD j 0))
        (min (1 - st.pos.getD i 0) (1 - st.pos.getD j 0)) ∧
    gradEstimate pdfs prior st i j s =
      (lnpostPerturbed pdfs prior st i j (s / 2) -
        lnpostPerturbed pdfs prior st i j (-(s / 2))) / (s : EReal) ∧
    proposalScale 0 s = |s| ∧
    (∀ g : ℝ, g ≠ 0 → proposalScale (g : EReal) s = min (1 / |g|) (|s * 1e4|)) := by
  refine ⟨?_, rfl, ?_, ?_⟩
  · rw [probeScale, min4, ← min_assoc]
  · rw [proposalScale, if_pos rfl]
  · intro g hg
    rw [proposalScale, if_neg (EReal.coe_ne_zero.mpr hg)]
    rw [one_div, ← EReal.coe_inv, eabs_coe, ← ereal_coe_min, EReal.toReal_coe,
      abs_inv, one_div]

/-- Witness for claim C6 at a concrete input. -/
theorem C6_witness :
    proposalScale ((2 : ℝ) : EReal) 1 = min (1 / |(2 : ℝ)|) (|(1 : ℝ) * 1e4|) :=
  (C6_adaptive_proposal_scale [] zeroPrior ⟨[], 0, []⟩ 0 0 1).2.2.2 2 (by norm_num)

/-! ### The starting position actually used by a run (claim C3) -/

/-- Claim C3 (divergence exhibited): on a sampler whose trace already holds the sample
`[1, 0]`, calling `run_mcmc` with `pos_init = None` records a sample computed from the
stacked-PDFs start `[1/2, 1/2]` — because the source forwards the raw `pos_init` to
`self.sample`, which has no trace fallback — while the resolution the source computes
(and its docstring promises), `runResolvedPos`, yields the last trace sample `[1, 0]`. -/
theorem C3_trace_fallback_dead (rs : RandomSource) :
    (run_mcmc ⟨[[1 / 2, 1 / 2]], [[1, 0]], [0]⟩ 1 none none 0 0 rs).samples =
      [[1, 0], [1 / 2, 1 / 2]] ∧
    runResolvedPos ⟨[[1 / 2, 1 / 2]], [[1, 0]], [0]⟩ none = [1, 0] ∧
    sampleStart [[1 / 2, 1 / 2]] none = [1 / 2, 1 / 2] ∧
    ([1, 0] : Vec) ≠ [1 / 2, 1 / 2] := by
  have hstack : stackedInit [[1 / 2, 1 / 2]] = [1 / 2, 1 / 2] := by
    simp [stackedInit, Ndim]
    norm_num
  refine ⟨?_, ?_, ?_, ?_⟩
  · simp [run_mcmc, sample, sampleFrom, gibbsSweep, initState, sampleStart]
    simpa using hstack
  · rfl
  · simp [sampleStart]
    simpa using hstack
  · intro h
    have := List.head_eq_of_cons_eq h
    norm_num at this

/-! ### Trace growth and results (claim C7) -/

/-- The working state after the first `k` outer iterations, counting sweep indices from
`it` and starting from `st`. -/
def iterStateFrom (pdfs : List Vec) (prior : Vec → EReal) (rs : RandomSource)
    (thin mh : ℕ) : ℕ → MCState → ℕ → MCState
  | _, st, 0 => st
  | it, st, k + 1 =>
    iterStateFrom pdfs prior rs thin mh (it + 1) (gibbsSweep pdfs prior rs thin mh it st) k

theorem sampleFrom_length (pdfs : List Vec) (prior : Vec → EReal) (rs : RandomSource)
    (thin mh : ℕ) : ∀ (n it : ℕ) (st : MCState),
    (sampleFrom pdfs prior rs thin mh n it st).length = n := by
  intro n
  induction n with
  | zero => intro it st; rfl
  | succ m ih => intro it st; simp [sampleFrom, ih]

theorem sampleFrom_getElem (pdfs : List Vec) (prior : Vec → EReal) (rs : RandomSource)
    (thin mh : ℕ) : ∀ (n it : ℕ) (st : MCState) (k : ℕ), k < n →
    (sampleFrom pdfs prior rs thin mh n it st)[k]? =
      some ((iterStateFrom pdfs prior rs thin mh it st (k + 1)).pos,
        (iterStateFrom pdfs prior rs thin mh it st (k + 1)).lnpost) := by
  intro n
  induction n with
  | zero => intro it st k hk; omega
  | succ m ih =>
    intro it st k hk
    cases k with
    | zero => simp [sampleFrom, iterStateFrom]
    | succ k2 =>
      simp only [sampleFrom, List.getElem?_cons_succ, iterStateFrom]
      exact ih (it + 1) _ k2 (by omega)

/-- Claim C7: a completed `run_mcmc` call appends exactly `Niter` (histogram,
log-posterior) pairs to the two sample lists — the pair recorded for outer iteration `k`
being the state after `k + 1` Gibbs sweeps — keeping all earlier entries unchanged and in
order, and `results` returns the trace as two parallel ordered sequences of equal
length. -/
theorem C7_trace_growth_and_results (s : SamplerState) (Niter : ℕ)
    (priorOpt : Option (Vec → EReal)) (pos_init : Option Vec) (thin mh : ℕ)
    (rs : RandomSource) (hlen : s.samples.length = s.samples_lnp.length) :
    (run_mcmc s Niter priorOpt pos_init thin mh rs).samples =
      s.samples ++
        (sample s.pdfs (some (priorOpt.getD zeroPrior)) pos_init Niter thin mh rs).map
          Prod.fst ∧
    (run_mcmc s Niter priorOpt pos_init thin mh rs).samples_lnp =
      s.samples_lnp ++
        (sample s.pdfs (some (priorOpt.getD zeroPrior)) pos_init Niter thin mh rs).map
          Prod.snd ∧
    (sample s.pdfs (some (priorOpt.getD zeroPrior)) pos_init Niter thin mh rs).length =
      Niter ∧
    (∀ k, k < Niter →
      (sample s.pdfs (some (priorOpt.getD zeroPrior)) pos_init Niter thin mh rs)[k]? =
        some ((iterStateFrom s.pdfs (priorOpt.getD zeroPrior) rs thin mh 0
            (initState s.pdfs (priorOpt.getD zeroPrior) (sampleStart s.pdfs pos_init))
            (k + 1)).pos,
          (iterStateFrom s.pdfs (priorOpt.getD zeroPrior) rs thin mh 0
            (initState s.pdfs (priorOpt.getD zeroPrior) (sampleStart s.pdfs pos_init))
            (k + 1)).lnpost)) ∧
    results (run_mcmc s Niter priorOpt pos_init thin mh rs) =
      ((run_mcmc s Niter priorOpt pos_init thin mh rs).samples,
        (run_mcmc s Niter priorOpt pos_init thin mh rs).samples_lnp) ∧
    (results (run_mcmc s Niter priorOpt pos_init thin mh rs)).1.length =
      (results (run_mcmc s Niter priorOpt pos_init thin mh rs)).2.length ∧
    (results (run_mcmc s Niter priorOpt pos_init thin mh rs)).1.length =
      s.samples.length + Niter := by
  refine ⟨rfl, rfl, sampleFrom_length _ _ _ _ _ _ _ _, ?_, rfl, ?_, ?_⟩
  · intro k hk
    exact sampleFrom_getElem _ _ _ _ _ _ _ _ k hk
  · simp [results, run_mcmc, sample, sampleFrom_length, hlen]
  · simp [results, run_mcmc, sample, sampleFrom_length]

/-- Witness for claim C7 at a concrete input. -/
theorem C7_witness :
    (results (run_mcmc ⟨[[1]], [], []⟩ 1 none (some [1]) 0 0
        ⟨fun _ => (0, 1), fun _ => 0, fun _ => 0⟩)).1.length = 0 + 1 :=
  (C7_trace_growth_and_results ⟨[[1]], [], []⟩ 1 none (some [1]) 0 0
    ⟨fun _ => (0, 1), fun _ => 0, fun _ => 0⟩ rfl).2.2.2.2.2.2

/-! ### Determinism (claim C8) -/

/-- Claim C8: two `run_mcmc` calls on samplers with identical observation tables and
identical recorded traces, with the same prior option, initial position, iteration,
thinning and MH-step counts, and identically seeded random sources (modelled as equal
oracles), produce identical results — the same sequence of histograms and the same
sequence of log-posteriors. -/
theorem C8_determinism (s1 s2 : SamplerState) (Niter : ℕ)
    (pr1 pr2 : Option (Vec → EReal)) (pi1 pi2 : Option Vec) (thin mh : ℕ)
    (rs1 rs2 : RandomSource)
    (hpdfs : s1.pdfs = s2.pdfs) (hsamp : s1.samples = s2.samples)
    (hlnp : s1.samples_lnp = s2.samples_lnp) (hpr : pr1 = pr2) (hpi : pi1 = pi2)
    (hrs : rs1 = rs2) :
    results (run_mcmc s1 Niter pr1 pi1 thin mh rs1) =
      results (run_mcmc s2 Niter pr2 pi2 thin mh rs2) := by
  cases s1
  cases s2
  simp only at hpdfs hsamp hlnp
  subst hpdfs hsamp hlnp hpr hpi hrs
  rfl

/-- Witness for claim C8 at a concrete input. -/
theorem C8_witness :
    results (run_mcmc ⟨[[1]], [], []⟩ 1 none none 0 0
        ⟨fun _ => (0, 1), fun _ => 0, fun _ => 0⟩) =
      results (run_mcmc ⟨[[1]], [], []⟩ 1 none none 0 0
        ⟨fun _ => (0, 1), fun _ => 0, fun _ => 0⟩) :=
  C8_determinism ⟨[[1]], [], []⟩ ⟨[[1]], [], []⟩ 1 none none none none 0 0
    ⟨fun _ => (0, 1), fun _ => 0, fun _ => 0⟩ ⟨fun _ => (0, 1), fun _ => 0, fun _ => 0⟩
    rfl rfl rfl rfl rfl rfl

/-! ### The implicit default prior (claim C9)

The `...NP` definitions are the comparison chain for the refinement claim C9: the same
sampler with the prior term omitted everywhere, so that every recorded log-posterior is
the log-likelihood of the likelihood engine alone. -/

def mhStepNP (pdfs : List Vec) (i j : ℕ) (gscale : ℝ) (st : MCState)
    (zraw e : ℝ) : MCState :=
  let z := zraw * gscale
  let pos_new := updatePair st.pos i j z
  let r := loglike_nz pos_new pdfs (some st.overlap) (some (i, j)) (some z)
  if ((-e : ℝ) : EReal) < r.1 - st.lnpost then ⟨pos_new, r.1, r.2⟩ else st

def gradEstimateNP (pdfs : List Vec) (st : MCState) (i j : ℕ) (scale : ℝ) : EReal :=
  ((loglike_nz st.pos pdfs (some st.overlap) (some (i, j)) (some (scale / 2))).1 -
    (loglike_nz st.pos pdfs (some st.overlap) (some (i, j)) (some (-(scale / 2)))).1) /
    (scale : EReal)

def gibbsPairNP (pdfs : List Vec) (rs : RandomSource) (mh idx : ℕ)
    (st : MCState) : MCState :=
  let i := (rs.pairs idx).1
  let j := (rs.pairs idx).2
  let gscale := proposalScale (gradEstimateNP pdfs st i j (probeScale st.pos i j))
    (probeScale st.pos i j)
  (List.range mh).foldl
    (fun s k =>
      mhStepNP pdfs i j gscale s (rs.norms (idx * mh + k)) (rs.exps (idx * mh + k)))
    st

def gibbsSweepNP (pdfs : List Vec) (rs : RandomSource) (thin mh it : ℕ)
    (st : MCState) : MCState :=
  (List.range thin).foldl (fun s p => gibbsPairNP pdfs rs mh (it * thin + p) s) st

def sampleFromNP (pdfs : List Vec) (rs : RandomSource) (thin mh : ℕ) :
    ℕ → ℕ → MCState → List (Vec × EReal)
  | 0, _, _ => []
  | n + 1, it, st =>
    let st1 := gibbsSweepNP pdfs rs thin mh it st
    (st1.pos, st1.lnpost) :: sampleFromNP pdfs rs thin mh n (it + 1) st1

def initStateNP (pdfs : List Vec) (pos : Vec) : MCState :=
  ⟨pos, (loglike_nz pos pdfs none none none).1, (loglike_nz pos pdfs none none none).2⟩

def sampleNP (pdfs : List Vec) (pos_init : Option Vec) (Niter thin mh : ℕ)
    (rs : RandomSource) : List (Vec × EReal) :=
  sampleFromNP pdfs rs thin mh Niter 0 (initStateNP pdfs (sampleStart pdfs pos_init))

theorem foldl_congr_fun {α β : Type} (f g : β → α → β) (l : List α) (b : β)
    (h : ∀ b1 a, f b1 a = g b1 a) : l.foldl f b = l.foldl g b := by
  induction l generalizing b with
  | nil => rfl
  | cons x t ih => rw [List.foldl_cons, List.foldl_cons, h, ih]

theorem mhStep_zeroPrior (pdfs : List Vec) (i j : ℕ) (gscale : ℝ) (st : MCState)
    (zraw e : ℝ) :
    mhStep pdfs zeroPrior i j gscale st zraw e = mhStepNP pdfs i j gscale st zraw e := by
  simp only [mhStep, mhStepNP, zeroPrior, add_zero]

theorem gradEstimate_zeroPrior (pdfs : List Vec) (st : MCState) (i j : ℕ) (scale : ℝ) :
    gradEstimate pdfs zeroPrior st i j scale = gradEstimateNP pdfs st i j scale := by
  simp only [gradEstimate, gradEstimateNP, lnpostPerturbed, zeroPrior, add_zero]

theorem gibbsPair_zeroPrior (pdfs : List Vec) (rs : RandomSource) (mh idx : ℕ)
    (st : MCState) :
    gibbsPair pdfs zeroPrior rs mh idx st = gibbsPairNP pdfs rs mh idx st := by
  simp only [gibbsPair, gibbsPairNP, gradEstimate_zeroPrior]
  exact foldl_congr_fun _ _ _ st (fun b1 a => mhStep_zeroPrior pdfs _ _ _ b1 _ _)

theorem gibbsSweep_zeroPrior (pdfs : List Vec) (rs : RandomSource) (thin mh it : ℕ)
    (st : MCState) :
    gibbsSweep pdfs zeroPrior rs thin mh it st = gibbsSweepNP pdfs rs thin mh it st := by
  simp only [gibbsSweep, gibbsSweepNP]
  exact foldl_congr_fun _ _ _ st (fun b1 a => gibbsPair_zeroPrior pdfs rs mh _ b1)

theorem sampleFrom_zeroPrior (pdfs : List Vec) (rs : RandomSource) (thin mh : ℕ) :
    ∀ (n it : ℕ) (st : MCState),
    sampleFrom pdfs zeroPrior rs thin mh n it st = sampleFromNP pdfs rs thin mh n it st := by
  intro n
  induction n with
  | zero => intro it st; rfl
  | succ m ih =>
    intro it st
    simp only [sampleFrom, sampleFromNP, gibbsSweep_zeroPrior, ih]

theorem initState_zeroPrior (pdfs : List Vec) (pos : Vec) :
    initState pdfs zeroPrior pos = initStateNP pdfs pos := by
  simp only [initState, initStateNP, zeroPrior, add_zero]

/-- Claim C9: calling `run_mcmc` or `sample` with `logprior_nz = None` substitutes the
default prior that returns `0.` for every histogram, so the run coincides with the
prior-free chain: every recorded log-posterior is the log-likelihood alone, the prior
term contributing exactly zero at every evaluation. -/
theorem C9_default_prior (s : SamplerState) (pdfs : List Vec) (pos_init : Option Vec)
    (Niter thin mh : ℕ) (rs : RandomSource) :
    run_mcmc s Niter none pos_init thin mh rs =
      run_mcmc s Niter (some zeroPrior) pos_init thin mh rs ∧
    sample pdfs none pos_init Niter thin mh rs = sampleNP pdfs pos_init Niter thin mh rs ∧
    (run_mcmc s Niter none pos_init thin mh rs).samples_lnp =
      s.samples_lnp ++ (sampleNP s.pdfs pos_init Niter thin mh rs).map Prod.snd := by
  have hsample : ∀ q : List Vec,
      sample q none pos_init Niter thin mh rs = sampleNP q pos_init Niter thin mh rs := by
    intro q
    simp only [sample, sampleNP, Option.getD_none, sampleFrom_zeroPrior,
      initState_zeroPrior]
  refine ⟨rfl, hsample pdfs, ?_⟩
  simp only [run_mcmc, Option.getD_none]
  rw [show sample s.pdfs (some zeroPrior) pos_init Niter thin mh rs =
      sampleNP s.pdfs pos_init Niter thin mh rs from hsample s.pdfs]
